import Mathlib

/-!
Verification of the leaderboard and membership aggregation core of the
uk-connections repository.  The definitions below are a shallow embedding of
the two server variants found in the source: the flat-file-backed server
(`src/unnamed/part_000`, reading and writing `data.json`) and the
service-backed server (`src/server.js`, reading and writing relational
tables).  JavaScript objects keyed by strings are modelled as association
lists, arrays as lists, numbers as `Int`/`Nat`, ISO timestamp strings as
`String`, and nullable fields as `Option`.
-/

/-- League record, `db.leagues[id] = \x7b id, name, createdAt \x7d` in
`src/unnamed/part_000` lines 61-65. -/
structure League where
  id : String
  name : String
  createdAt : String
deriving DecidableEq, Repr

/-- Player record, `db.players[uuid] = \x7b uuid, displayName, createdAt \x7d` in
`src/unnamed/part_000` lines 109-113. -/
structure Player where
  uuid : String
  displayName : String
  createdAt : String
deriving DecidableEq, Repr

/-- MembershipRow row `\x7b playerUuid, leagueId, joinedAt \x7d`
(`src/unnamed/part_000` lines 121-125). -/
structure MembershipRow where
  playerUuid : String
  leagueId : String
  joinedAt : String
deriving DecidableEq, Repr

/-- Score row `\x7b playerUuid, leagueId, date, mistakes, recordedAt \x7d`
(`src/unnamed/part_000` lines 232-238). -/
structure Score where
  playerUuid : String
  leagueId : String
  date : String
  mistakes : Int
  recordedAt : String
deriving DecidableEq, Repr

/-- The whole store: the `data.json` shape of `src/unnamed/part_000`
lines 24-29 (equally the four relational tables used by `src/server.js`). -/
structure DB where
  leagues : List (String × League)
  players : List (String × Player)
  memberships : List MembershipRow
  scores : List Score
deriving DecidableEq, Repr

/-- The empty store (`loadDB` fallback, `src/unnamed/part_000` lines 24-29). -/
def emptyDB : DB := ⟨[], [], [], []⟩

/-- Read `obj[k]` on a JavaScript object modelled as an association list. -/
def objLookup {α : Type} (m : List (String × α)) (k : String) : Option α :=
  match m with
  | [] => none
  | (k', v) :: rest => if k' = k then some v else objLookup rest k

/-- Write `obj[k] = v` on a JavaScript object modelled as an association
list: replace the existing binding or append a new one. -/
def objSet {α : Type} (m : List (String × α)) (k : String) (v : α) :
    List (String × α) :=
  match m with
  | [] => [(k, v)]
  | (k', v') :: rest =>
    if k' = k then (k, v) :: rest else (k', v') :: objSet rest k v

/-- The trim of JavaScript strings: strip whitespace from both ends
(implemented structurally over the character list). -/
def jsTrim (s : String) : String :=
  ⟨(((s.data.dropWhile Char.isWhitespace).reverse.dropWhile
      Char.isWhitespace).reverse)⟩

/-- One leaderboard entry before rank assignment:
`\x7b uuid, display_name, mistakes, date \x7d` built by the member-score join
(`src/server.js` lines 138-146, `src/unnamed/part_000` lines 156-165). -/
structure Entry where
  uuid : String
  display_name : String
  mistakes : Option Int
  date : Option String
deriving DecidableEq, Repr

/-- A leaderboard entry together with its assigned rank
(`\x7b ...member, rank \x7d` in both variants). -/
structure RankedEntry where
  entry : Entry
  rank : Option Nat
deriving DecidableEq, Repr

/-- The sort comparator of both leaderboard handlers (`src/server.js` lines
149-156, `src/unnamed/part_000` lines 168-175).  `localeCompare` is
locale-aware behaviour of the JavaScript runtime, so it is taken as a
parameter `lc`. -/
def cmpEntry (lc : String → String → Int) (a b : Entry) : Int :=
  match a.mistakes, b.mistakes with
  | some x, some y => x - y
  | some _, none => -1
  | none, some _ => 1
  | none, none => lc a.display_name b.display_name

/-- The call `members.sort(comparator)`: a stable sort of the member list by
the comparator (modern JavaScript engines implement a stable sort that
leaves the array ordered by the comparator). -/
def sortMembers (lc : String → String → Int) (members : List Entry) :
    List Entry :=
  members.insertionSort (fun a b => cmpEntry lc a b ≤ 0)

/-- Rank assignment of `src/server.js` lines 158-173: a running
`playedCount` with `currentRank` and `lastMistakes` state. -/
def rankLoop : Nat → Option Int → Nat → List Entry → List RankedEntry
  | _, _, _, [] => []
  | currentRank, lastMistakes, playedCount, e :: rest =>
    match e.mistakes with
    | some k =>
      if some k ≠ lastMistakes then
        ⟨e, some (playedCount + 1)⟩ ::
          rankLoop (playedCount + 1) (some k) (playedCount + 1) rest
      else
        ⟨e, some currentRank⟩ ::
          rankLoop currentRank lastMistakes (playedCount + 1) rest
    | none => ⟨e, none⟩ :: rankLoop currentRank lastMistakes playedCount rest

/-- Rank assignment of `src/unnamed/part_000` lines 177-190: on a change of
`mistakes` the rank is recomputed as `index + 1` minus the number of
preceding entries whose `mistakes` is null. -/
def rankLoopFlat (members : List Entry) :
    Nat → Nat → Option Int → List Entry → List RankedEntry
  | _, _, _, [] => []
  | idx, currentRank, lastMistakes, e :: rest =>
    match e.mistakes with
    | some k =>
      if some k ≠ lastMistakes then
        let r := idx + 1 -
          ((members.take idx).filter (fun m => m.mistakes.isNone)).length
        ⟨e, some r⟩ :: rankLoopFlat members (idx + 1) r (some k) rest
      else
        ⟨e, some currentRank⟩ ::
          rankLoopFlat members (idx + 1) currentRank lastMistakes rest
    | none =>
      ⟨e, none⟩ :: rankLoopFlat members (idx + 1) currentRank lastMistakes rest

/-- The full rank pass of the flat-file variant (`src/unnamed/part_000`
lines 177-190) starting from `currentRank = 0`, `lastMistakes = null`. -/
def ranksFlat (members : List Entry) : List RankedEntry :=
  rankLoopFlat members 0 0 none members

/-- The full rank pass of the service-backed variant (`src/server.js` lines
158-173) starting from `currentRank = 0`, `lastMistakes = null`,
`playedCount = 0`. -/
def ranksServer (members : List Entry) : List RankedEntry :=
  rankLoop 0 none 0 members

/-- The member-score join of `src/server.js` lines 124-146: each membership
of the league becomes an entry, with the display name from the joined
player record (`'Unknown'` when that record is missing or its name is
empty) and mistakes/date from the score row for this league and date. -/
def buildMembers (db : DB) (id date : String) : List Entry :=
  let memberUuids :=
    (db.memberships.filter (fun m => decide (m.leagueId = id))).map
      (fun m => m.playerUuid)
  let dateScores :=
    db.scores.filter (fun s => decide (s.leagueId = id ∧ s.date = date))
  memberUuids.map (fun u =>
    { uuid := u
      display_name :=
        match objLookup db.players u with
        | some p => if p.displayName = "" then "Unknown" else p.displayName
        | none => "Unknown"
      mistakes := (dateScores.find? (fun s => decide (s.playerUuid = u))).map
        (fun s => s.mistakes)
      date := (dateScores.find? (fun s => decide (s.playerUuid = u))).map
        (fun s => s.date) })

/-- The leaderboard handler of `src/server.js` lines 110-180: resolve the
league (404, modelled as `none`, when absent), build the member list, sort
it with the comparator, and assign ranks. -/
def computeLeaderboard (db : DB) (id date : String)
    (lc : String → String → Int) :
    Option (League × String × List RankedEntry) :=
  match objLookup db.leagues id with
  | none => none
  | some league =>
    some (league, date,
      rankLoop 0 none 0 (sortMembers lc (buildMembers db id date)))

/-- Result of the league creation handler. -/
inductive CreateLeagueResult where
  | validationError (db : DB)
  | ok (db : DB) (league : League)
deriving DecidableEq, Repr

/-- The league creation handler of `src/unnamed/part_000` lines 52-75: the
id is generated outside the engine (a uuid slice), so it is a parameter. -/
def createLeague (db : DB) (name id now : String) : CreateLeagueResult :=
  if name = "" ∨ jsTrim name = "" then .validationError db
  else
    let league : League := ⟨id, jsTrim name, now⟩
    .ok { db with leagues := objSet db.leagues id league } league

/-- Result of the join handler. -/
inductive JoinResult where
  | validationError (db : DB)
  | notFound (db : DB)
  | ok (db : DB) (league : League)
deriving DecidableEq, Repr

/-- The join handler of `src/unnamed/part_000` lines 93-131: validate,
resolve the league, upsert the player (keeping an existing truthy
`createdAt`), and append a membership only when the pair is new. -/
def joinLeague (db : DB) (id uuid displayName now : String) : JoinResult :=
  if uuid = "" ∨ displayName = "" ∨ jsTrim displayName = "" then
    .validationError db
  else
    match objLookup db.leagues id with
    | none => .notFound db
    | some league =>
      let createdAt :=
        match objLookup db.players uuid with
        | some p => if p.createdAt = "" then now else p.createdAt
        | none => now
      let players :=
        objSet db.players uuid ⟨uuid, jsTrim displayName, createdAt⟩
      let memberships :=
        if (db.memberships.find? (fun m =>
            decide (m.playerUuid = uuid ∧ m.leagueId = id))).isSome then
          db.memberships
        else
          db.memberships ++ [⟨uuid, id, now⟩]
      .ok { db with players := players, memberships := memberships } league

/-- The per-league score upsert of `src/unnamed/part_000` lines 220-240:
update `mistakes` and `recordedAt` of the first row matching
(playerUuid, leagueId, date), else push a new row at the end. -/
def upsertScoreRow (scores : List Score) (uuid leagueId date : String)
    (mistakes : Int) (now : String) : List Score :=
  match scores with
  | [] => [⟨uuid, leagueId, date, mistakes, now⟩]
  | s :: rest =>
    if s.playerUuid = uuid ∧ s.leagueId = leagueId ∧ s.date = date then
      { s with mistakes := mistakes, recordedAt := now } :: rest
    else
      s :: upsertScoreRow rest uuid leagueId date mistakes now

/-- The fan-out loop of `src/unnamed/part_000` lines 218-241: one score
upsert per league of the player, incrementing `recorded` each iteration
(no per-league failure is possible against the flat file). -/
def fanoutFlatLoop (scores : List Score) (uuid date : String)
    (mistakes : Int) (now : String) : List String → List Score × Nat
  | [] => (scores, 0)
  | leagueId :: rest =>
    let scores' := upsertScoreRow scores uuid leagueId date mistakes now
    let res := fanoutFlatLoop scores' uuid date mistakes now rest
    (res.1, res.2 + 1)

/-- Result of the score submission handler. -/
inductive SubmitResult where
  | validationError (db : DB)
  | ok (db : DB) (recorded : Nat)
deriving DecidableEq, Repr

/-- The score submission handler of `src/unnamed/part_000` lines 200-246:
reject only a falsy uuid, a falsy date, or an undefined mistakes value
(modelled as `none`); then fan the score out over the leagues of the
player, returning `recorded = 0` when there are none. -/
def submitScore (db : DB) (uuid date : String) (mistakes : Option Int)
    (now : String) : SubmitResult :=
  match mistakes with
  | none => .validationError db
  | some m =>
    if uuid = "" ∨ date = "" then .validationError db
    else
      let playerLeagues :=
        (db.memberships.filter (fun mb => decide (mb.playerUuid = uuid))).map
          (fun mb => mb.leagueId)
      if playerLeagues.isEmpty then .ok db 0
      else
        let res := fanoutFlatLoop db.scores uuid date m now playerLeagues
        .ok { db with scores := res.1 } res.2

/-- Result of the service-backed score submission handler.  Only the score
table and the counter are reported, since the rest of the store is not
touched by the handler. -/
inductive ServerSubmitResult where
  | validationError
  | ok (scores : List Score) (recorded : Nat)
deriving DecidableEq, Repr

/-- The fan-out loop of `src/server.js` lines 200-211: each league gets an
independent upsert whose outcome is reported by the store (`err leagueId`
true means the store returned an error); `recorded` is incremented only on
success and a failure does not stop the loop. -/
def fanoutServer (scores : List Score) (err : String → Bool)
    (uuid date : String) (mistakes : Int) (now : String) :
    List String → List Score × Nat
  | [] => (scores, 0)
  | leagueId :: rest =>
    if err leagueId then
      fanoutServer scores err uuid date mistakes now rest
    else
      let scores' := upsertScoreRow scores uuid leagueId date mistakes now
      let res := fanoutServer scores' err uuid date mistakes now rest
      (res.1, res.2 + 1)

/-- The score submission handler of `src/server.js` lines 183-214: the same
validation as the flat variant, then the per-league upserts against the
remote store, whose per-league failures are reported by `err`. -/
def submitScoreServer (db : DB) (err : String → Bool) (uuid date : String)
    (mistakes : Option Int) (now : String) : ServerSubmitResult :=
  match mistakes with
  | none => .validationError
  | some m =>
    if uuid = "" ∨ date = "" then .validationError
    else
      let playerLeagues :=
        (db.memberships.filter (fun mb => decide (mb.playerUuid = uuid))).map
          (fun mb => mb.leagueId)
      if playerLeagues.isEmpty then .ok db.scores 0
      else
        let res := fanoutServer db.scores err uuid date m now playerLeagues
        .ok res.1 res.2

/-- The display-name update handler of `src/unnamed/part_000` lines
292-315: on invalid input the store is left unchanged (400 before any
write); otherwise create the player or overwrite its `displayName` only. -/
def updateDisplayName (db : DB) (uuid displayName now : String) : DB :=
  if displayName = "" ∨ jsTrim displayName = "" then db
  else
    match objLookup db.players uuid with
    | none =>
      { db with players :=
          objSet db.players uuid ⟨uuid, jsTrim displayName, now⟩ }
    | some p =>
      { db with players :=
          objSet db.players uuid { p with displayName := jsTrim displayName } }

/-- One row of the player league summary
(`src/unnamed/part_000` lines 268-273, `src/server.js` lines 242-247). -/
structure LeagueSummary where
  id : String
  name : String
  total_members : Nat
  played_today : Nat
deriving DecidableEq, Repr

/-- The per-league body of the summary handler of `src/unnamed/part_000`
lines 259-274: a league that does not resolve yields null, and the nulls
are dropped by `.filter(Boolean)`; here the map and the filter are fused
into one recursion. -/
def summarizeFlat (db : DB) (uuid today : String) :
    List String → List LeagueSummary
  | [] => []
  | leagueId :: rest =>
    match objLookup db.leagues leagueId with
    | none => summarizeFlat db uuid today rest
    | some league =>
      { id := leagueId
        name := league.name
        total_members :=
          (db.memberships.filter (fun m => decide (m.leagueId = leagueId))).length
        played_today :=
          (db.scores.filter (fun s =>
            decide (s.leagueId = leagueId ∧ s.date = today))).length } ::
        summarizeFlat db uuid today rest

/-- The summary handler of `src/unnamed/part_000` lines 249-277: `today` is
computed once before the loop and every league of the player is summarised
against it; unresolvable leagues are dropped. -/
def playerLeagueSummaryFlat (db : DB) (uuid today : String) :
    List LeagueSummary :=
  summarizeFlat db uuid today
    ((db.memberships.filter (fun m => decide (m.playerUuid = uuid))).map
      (fun m => m.leagueId))

/-- The summary handler of `src/server.js` lines 217-251: `today` is
computed once before the loop; a league record that does not resolve is
kept with the fallback name `'Unknown'` rather than dropped. -/
def playerLeagueSummaryServer (db : DB) (uuid today : String) :
    List LeagueSummary :=
  let ms := db.memberships.filter (fun m => decide (m.playerUuid = uuid))
  if ms.isEmpty then []
  else
    ms.map (fun m =>
      { id := m.leagueId
        name :=
          match objLookup db.leagues m.leagueId with
          | some league => if league.name = "" then "Unknown" else league.name
          | none => "Unknown"
        total_members :=
          (db.memberships.filter (fun mb =>
            decide (mb.leagueId = m.leagueId))).length
        played_today :=
          (db.scores.filter (fun s =>
            decide (s.leagueId = m.leagueId ∧ s.date = today))).length })

/-- The engine operations that mutate the store, as exposed by the
flat-file variant handlers. -/
inductive EngineOp where
  | createLeague (name id now : String)
  | join (id uuid displayName now : String)
  | submit (uuid date : String) (mistakes : Option Int) (now : String)
  | updateName (uuid displayName now : String)

/-- Apply one operation to the store, keeping the store of the result
(an error response leaves the store unchanged in every handler). -/
def applyOp (db : DB) : EngineOp → DB
  | .createLeague name id now =>
    match createLeague db name id now with
    | .validationError db' => db'
    | .ok db' _ => db'
  | .join id uuid displayName now =>
    match joinLeague db id uuid displayName now with
    | .validationError db' => db'
    | .notFound db' => db'
    | .ok db' _ => db'
  | .submit uuid date mistakes now =>
    match submitScore db uuid date mistakes now with
    | .validationError db' => db'
    | .ok db' _ => db'
  | .updateName uuid displayName now => updateDisplayName db uuid displayName now

/-- Run a sequence of operations from a starting store. -/
def runOps (db : DB) (ops : List EngineOp) : DB := ops.foldl applyOp db

/-- The played entries of a leaderboard, in output order. -/
def playedEntries (lb : List RankedEntry) : List RankedEntry :=
  lb.filter (fun e => e.entry.mistakes.isSome)

/-- Number of entries of the list that played and made strictly fewer
mistakes than `m`. -/
def countBetter (l : List Entry) (m : Int) : Nat :=
  l.countP (fun x =>
    match x.mistakes with
    | some y => decide (y < m)
    | none => false)

/-- One-based position, among the played entries, of the first member of
the tied group with mistakes value `m`. -/
def groupStartPos (played : List RankedEntry) (m : Int) : Nat :=
  played.findIdx (fun x => decide (x.entry.mistakes = some m)) + 1

/-- The league list a submitted score fans out over: the leagues of the
memberships of the player (`src/server.js` lines 190-194,
`src/unnamed/part_000` lines 210-212). -/
def memberLeagues (db : DB) (uuid : String) : List String :=
  (db.memberships.filter (fun mb => decide (mb.playerUuid = uuid))).map
    (fun mb => mb.leagueId)

/-- The ordering the specification describes for the leaderboard sort:
entries with a present mistakes value before entries with an absent one,
present values ascending by mistakes, absent values ascending by the
locale comparison of the display names. -/
def specLE (lc : String → String → Int) (a b : Entry) : Prop :=
  match a.mistakes, b.mistakes with
  | some x, some y => x ≤ y
  | some _, none => True
  | none, some _ => False
  | none, none => lc a.display_name b.display_name ≤ 0

/-- Relation used while reasoning about sorted member lists: whenever both
entries played, the mistakes of the first are at most those of the
second. -/
def mleR (a b : Entry) : Prop :=
  ∀ x y, a.mistakes = some x → b.mistakes = some y → x ≤ y

/-- Invariant tying the mutable state of the rank loop of `src/server.js`
lines 158-173 to the already processed part `pre` of the sorted list. -/
def rankState (pre : List Entry) (cr : Nat) (lastM : Option Int) : Prop :=
  match lastM with
  | none => pre.countP (fun e => e.mistakes.isSome) = 0
  | some v =>
    cr = 1 + countBetter pre v ∧ (∃ e ∈ pre, e.mistakes = some v) ∧
      ∀ e ∈ pre, ∀ x, e.mistakes = some x → x ≤ v

/-- A degenerate locale comparison (every pair of names compares equal),
used to instantiate the locale parameter on concrete inputs. -/
def lcZero : String → String → Int := fun _ _ => 0

/-- Fixture: a store with one league and one member of it. -/
def oneLeagueDB : DB :=
  ⟨[("l1", ⟨"l1", "L", "t0"⟩)], [], [⟨"u1", "l1", "t1"⟩], []⟩

/-- Fixture: a store whose only membership points at a league id that has
no league record. -/
def danglingDB : DB :=
  ⟨[("here", ⟨"here", "My League", "t0"⟩)], [], [⟨"u1", "gone", "t1"⟩], []⟩

/-- Fixture: a store with one league and one existing player. -/
def playerDB : DB :=
  ⟨[("l1", ⟨"l1", "L", "t0"⟩)], [("u1", ⟨"u1", "Old", "t0"⟩)],
    [⟨"u1", "l1", "t1"⟩], []⟩

/-- Fixture: a league with two tied played members and one member without
a player record and without a score. -/
def richDB : DB :=
  ⟨[("l1", ⟨"l1", "L", "t0"⟩)],
    [("u1", ⟨"u1", "Amy", "t0"⟩), ("u2", ⟨"u2", "Bob", "t0"⟩)],
    [⟨"u1", "l1", "t1"⟩, ⟨"u2", "l1", "t1"⟩, ⟨"u3", "l1", "t1"⟩],
    [⟨"u1", "l1", "2024-01-05", 2, "t2"⟩, ⟨"u2", "l1", "2024-01-05", 2, "t2"⟩]⟩

/-- The referential invariant of the data model: every score row points at
a player-league pair that has a membership row. -/
def scoresHaveMembership (db : DB) : Prop :=
  ∀ s ∈ db.scores, ∃ mb ∈ db.memberships,
    mb.playerUuid = s.playerUuid ∧ mb.leagueId = s.leagueId

/-- Fixture: the leaderboard of `richDB` for 2024-01-05. -/
def richLB : List RankedEntry :=
  [⟨⟨"u1", "Amy", some 2, some "2024-01-05"⟩, some 1⟩,
   ⟨⟨"u2", "Bob", some 2, some "2024-01-05"⟩, some 1⟩,
   ⟨⟨"u3", "Unknown", none, none⟩, none⟩]

/-! Shared helper lemmas. -/

/-- Looking up the key just written returns the written value. -/
theorem objLookup_objSet_self {α : Type} (m : List (String × α)) (k : String)
    (v : α) : objLookup (objSet m k v) k = some v := by
  induction m with
  | nil => simp [objSet, objLookup]
  | cons p rest ih =>
    obtain ⟨k', v'⟩ := p
    by_cases h : k' = k <;> simp [objSet, objLookup, h, ih]

/-- Rank assignment only decorates: stripping the ranks gives back the
input list. -/
theorem rankLoop_map_entry :
    ∀ (cr : Nat) (lastM : Option Int) (pc : Nat) (l : List Entry),
      (rankLoop cr lastM pc l).map (fun r => r.entry) = l := by
  intro cr lastM pc l
  induction l generalizing cr lastM pc with
  | nil => simp [rankLoop]
  | cons e rest ih =>
    cases he : e.mistakes with
    | none => simp [rankLoop, he, ih]
    | some k =>
      by_cases hk : some k ≠ lastM <;> simp [rankLoop, he, hk, ih]

/-- Splitting the length of a list of entries into the played and the
unplayed counts. -/
theorem countP_isSome_add_isNone (l : List Entry) :
    l.countP (fun e => e.mistakes.isSome) +
      l.countP (fun e => e.mistakes.isNone) = l.length := by
  induction l with
  | nil => simp
  | cons e rest ih =>
    cases he : e.mistakes <;>
      simp [List.countP_cons, he, ← ih] <;> omega

/-! Claim C3: the position-arithmetic rank pass of the flat-file variant
and the running played-count rank pass of the service-backed variant. -/

/-- Stepping both rank passes in lockstep: once the processed part of the
list is fixed, the position arithmetic of the flat-file variant computes
exactly the running played count of the service-backed variant. -/
theorem rankLoopFlat_eq_rankLoop (members : List Entry) :
    ∀ (rest pre : List Entry) (cr : Nat) (lastM : Option Int),
      members = pre ++ rest →
      rankLoopFlat members pre.length cr lastM rest =
        rankLoop cr lastM (pre.countP (fun e => e.mistakes.isSome)) rest := by
  intro rest
  induction rest with
  | nil => intro pre cr lastM _; simp [rankLoopFlat, rankLoop]
  | cons e rest ih =>
    intro pre cr lastM hm
    have htake : members.take pre.length = pre := by
      rw [hm]; exact List.take_left pre (e :: rest)
    have hm' : members = (pre ++ [e]) ++ rest := by
      rw [hm, List.append_assoc]; rfl
    have hlen : (pre ++ [e]).length = pre.length + 1 := by simp
    cases he : e.mistakes with
    | none =>
      have hcount : (pre ++ [e]).countP (fun x => x.mistakes.isSome) =
          pre.countP (fun x => x.mistakes.isSome) := by
        simp [List.countP_append, List.countP_singleton, he]
      have := ih (pre ++ [e]) cr lastM hm'
      rw [hlen, hcount] at this
      simp [rankLoopFlat, rankLoop, he, this]
    | some k =>
      have hnulls :
          ((members.take pre.length).filter (fun m => m.mistakes.isNone)).length =
            pre.countP (fun m => m.mistakes.isNone) := by
        rw [htake, List.countP_eq_length_filter]
      have hsum := countP_isSome_add_isNone pre
      have hr : pre.length + 1 -
          ((members.take pre.length).filter (fun m => m.mistakes.isNone)).length =
          pre.countP (fun x => x.mistakes.isSome) + 1 := by
        rw [hnulls]; omega
      have hcount : (pre ++ [e]).countP (fun x => x.mistakes.isSome) =
          pre.countP (fun x => x.mistakes.isSome) + 1 := by
        simp [List.countP_append, List.countP_singleton, he]
      by_cases hk : some k ≠ lastM
      · have h1 := ih (pre ++ [e])
          (pre.countP (fun x => x.mistakes.isSome) + 1) (some k) hm'
        rw [hlen, hcount] at h1
        simp only [rankLoopFlat, rankLoop, he, hr, h1]
        rw [if_pos hk, if_pos hk]
      · have h1 := ih (pre ++ [e]) cr lastM hm'
        rw [hlen, hcount] at h1
        simp only [rankLoopFlat, rankLoop, he]
        rw [if_neg hk, if_neg hk, h1]

/-- The two rank passes agree on every member list: the flat-file
position arithmetic and the service-backed running played count are
extensionally the same function. -/
theorem ranksFlat_eq_ranksServer (members : List Entry) :
    ranksFlat members = ranksServer members := by
  have h := rankLoopFlat_eq_rankLoop members members [] 0 none rfl
  simpa [ranksFlat, ranksServer] using h

/-- No member list, sorted by the leaderboard comparator or not, makes
the two rank computations of the two source variants differ. -/
theorem no_rank_disagreement :
    ¬ ∃ (lc : String → String → Int) (members : List Entry),
        List.Pairwise (fun a b => cmpEntry lc a b ≤ 0) members ∧
          ranksFlat members ≠ ranksServer members := by
  rintro ⟨lc, members, -, hne⟩
  exact hne (by
    have h := rankLoopFlat_eq_rankLoop members members [] 0 none rfl
    simpa [ranksFlat, ranksServer] using h)

/-! Claim C4: the score fan-out of the service-backed variant. -/

/-- The fan-out counter counts exactly the leagues whose upsert succeeded. -/
theorem fanoutServer_recorded (err : String → Bool) (uuid date : String)
    (m : Int) (now : String) :
    ∀ (ls : List String) (scores : List Score),
      (fanoutServer scores err uuid date m now ls).2 =
        (ls.filter (fun L => !err L)).length := by
  intro ls
  induction ls with
  | nil => intro scores; simp [fanoutServer]
  | cons L rest ih =>
    intro scores
    by_cases hL : err L = true
    · simp [fanoutServer, hL, ih]
    · simp only [Bool.not_eq_true] at hL
      simp [fanoutServer, hL, ih]

/-- After an upsert, a row holding the written values is present. -/
theorem upsertScoreRow_written (scores : List Score) (uuid L date : String)
    (m : Int) (now : String) :
    ∃ s ∈ upsertScoreRow scores uuid L date m now,
      s.playerUuid = uuid ∧ s.leagueId = L ∧ s.date = date ∧ s.mistakes = m := by
  induction scores with
  | nil =>
    exact ⟨⟨uuid, L, date, m, now⟩, by simp [upsertScoreRow]⟩
  | cons s rest ih =>
    by_cases hc : s.playerUuid = uuid ∧ s.leagueId = L ∧ s.date = date
    · refine ⟨{ s with mistakes := m, recordedAt := now }, ?_, ?_⟩
      · simp [upsertScoreRow, hc]
      · simpa using hc
    · obtain ⟨s0, hs0, hprop⟩ := ih
      exact ⟨s0, by simp [upsertScoreRow, hc, hs0], hprop⟩

/-- A row for another league is untouched by an upsert. -/
theorem upsertScoreRow_mem_of_ne {scores : List Score} {s0 : Score}
    (h : s0 ∈ scores) {uuid L date : String} {m : Int} {now : String}
    (hne : s0.leagueId ≠ L) :
    s0 ∈ upsertScoreRow scores uuid L date m now := by
  induction scores with
  | nil => simp at h
  | cons s rest ih =>
    by_cases hc : s.playerUuid = uuid ∧ s.leagueId = L ∧ s.date = date
    · rcases List.mem_cons.mp h with rfl | hmem
      · exact absurd hc.2.1 hne
      · simp [upsertScoreRow, hc, hmem]
    · rcases List.mem_cons.mp h with rfl | hmem
      · simp [upsertScoreRow, hc]
      · simp [upsertScoreRow, hc, ih hmem]

/-- An upsert of the same player, date and mistakes value preserves the
presence of a row holding those values. -/
theorem upsertScoreRow_preserves_present {scores : List Score}
    {uuid date : String} {m : Int} {L0 : String}
    (h : ∃ s ∈ scores, s.playerUuid = uuid ∧ s.leagueId = L0 ∧
      s.date = date ∧ s.mistakes = m) (L now : String) :
    ∃ s ∈ upsertScoreRow scores uuid L date m now,
      s.playerUuid = uuid ∧ s.leagueId = L0 ∧ s.date = date ∧ s.mistakes = m := by
  by_cases hLL : L0 = L
  · subst hLL
    exact upsertScoreRow_written scores uuid L0 date m now
  · obtain ⟨s0, hs0, hu, hl, hd, hm⟩ := h
    exact ⟨s0, upsertScoreRow_mem_of_ne hs0 (by rw [hl]; exact hLL), hu, hl, hd, hm⟩

/-- The whole fan-out preserves the presence of a row holding the values
being written. -/
theorem fanoutServer_preserves_present (err : String → Bool)
    (uuid date : String) (m : Int) (now : String) (L0 : String) :
    ∀ (ls : List String) (scores : List Score),
      (∃ s ∈ scores, s.playerUuid = uuid ∧ s.leagueId = L0 ∧
        s.date = date ∧ s.mistakes = m) →
      ∃ s ∈ (fanoutServer scores err uuid date m now ls).1,
        s.playerUuid = uuid ∧ s.leagueId = L0 ∧ s.date = date ∧ s.mistakes = m := by
  intro ls
  induction ls with
  | nil => intro scores h; simpa [fanoutServer] using h
  | cons L rest ih =>
    intro scores h
    by_cases hL : err L = true
    · simpa [fanoutServer, hL] using ih scores h
    · simp only [Bool.not_eq_true] at hL
      simpa [fanoutServer, hL] using
        ih _ (upsertScoreRow_preserves_present h L now)

/-- Every league whose upsert succeeded has its row in the final score
table, whatever failures happened around it. -/
theorem fanoutServer_writes (err : String → Bool) (uuid date : String)
    (m : Int) (now : String) :
    ∀ (ls : List String) (scores : List Score), ∀ L0 ∈ ls, err L0 = false →
      ∃ s ∈ (fanoutServer scores err uuid date m now ls).1,
        s.playerUuid = uuid ∧ s.leagueId = L0 ∧ s.date = date ∧ s.mistakes = m := by
  intro ls
  induction ls with
  | nil => intro scores L0 h; simp at h
  | cons L rest ih =>
    intro scores L0 hL0 herr
    rcases List.mem_cons.mp hL0 with rfl | hmem
    · simpa [fanoutServer, herr] using
        fanoutServer_preserves_present err uuid date m now L0 rest _
          (upsertScoreRow_written scores uuid L0 date m now)
    · by_cases hL : err L = true
      · simpa [fanoutServer, hL] using ih scores L0 hmem herr
      · simp only [Bool.not_eq_true] at hL
        simpa [fanoutServer, hL] using ih _ L0 hmem herr

/-- C4: for a player in no league the score submission returns
`recorded = 0` without error; with every per-league upsert healthy it
returns `recorded = N` for a player in `N` leagues; and in general a
failing upsert does not abort the remaining upserts: `recorded` counts
exactly the successful leagues and every successful league has its score
row in the final table. -/
theorem submitScore_fanout_spec (db : DB) (err : String → Bool)
    (uuid date now : String) (m : Int) (hu : uuid ≠ "") (hd : date ≠ "") :
    (memberLeagues db uuid = [] →
      submitScoreServer db err uuid date (some m) now = .ok db.scores 0) ∧
    ((∀ L ∈ memberLeagues db uuid, err L = false) →
      ∃ scores',
        submitScoreServer db err uuid date (some m) now =
          .ok scores' (memberLeagues db uuid).length) ∧
    (∀ scores' r,
      submitScoreServer db err uuid date (some m) now = .ok scores' r →
      r = ((memberLeagues db uuid).filter (fun L => !err L)).length ∧
      ∀ L ∈ memberLeagues db uuid, err L = false →
        ∃ s ∈ scores', s.playerUuid = uuid ∧ s.leagueId = L ∧
          s.date = date ∧ s.mistakes = m) := by
  have hunf : submitScoreServer db err uuid date (some m) now =
      if (memberLeagues db uuid).isEmpty then
        ServerSubmitResult.ok db.scores 0
      else
        ServerSubmitResult.ok
          (fanoutServer db.scores err uuid date m now (memberLeagues db uuid)).1
          (fanoutServer db.scores err uuid date m now (memberLeagues db uuid)).2 := by
    simp [submitScoreServer, memberLeagues, hu, hd]
  refine ⟨?_, ?_, ?_⟩
  · intro hempty
    rw [hunf, hempty]
    simp
  · intro hok
    by_cases hempty : memberLeagues db uuid = []
    · rw [hunf, hempty]; exact ⟨db.scores, by simp⟩
    · rw [hunf, if_neg (by simpa [List.isEmpty_iff] using hempty)]
      refine ⟨(fanoutServer db.scores err uuid date m now
        (memberLeagues db uuid)).1, ?_⟩
      have hfilter : (memberLeagues db uuid).filter (fun L => !err L) =
          memberLeagues db uuid := by
        rw [List.filter_eq_self]
        intro L hL
        simp [hok L hL]
      rw [fanoutServer_recorded, hfilter]
  · intro scores' r hres
    by_cases hempty : memberLeagues db uuid = []
    · rw [hunf, hempty] at hres
      simp at hres
      obtain ⟨hs, hr⟩ := hres
      constructor
      · rw [hempty]; simpa using hr.symm
      · rw [hempty]; intro L hL; simp at hL
    · rw [hunf, if_neg (by simpa [List.isEmpty_iff] using hempty)] at hres
      cases hres
      constructor
      · exact fanoutServer_recorded err uuid date m now _ _
      · intro L hL herr
        exact fanoutServer_writes err uuid date m now _ db.scores L hL herr

/-- Concrete run of the fan-out theorem: one member league, no failures. -/
theorem submitScore_fanout_spec_witness :
    ("u1" : String) ≠ "" ∧ ("2024-01-05" : String) ≠ "" ∧
    ((∀ L ∈ memberLeagues oneLeagueDB "u1", (fun _ => false) L = false) →
      ∃ scores',
        submitScoreServer oneLeagueDB (fun _ => false) "u1" "2024-01-05"
            (some 2) "t2" =
          .ok scores' (memberLeagues oneLeagueDB "u1").length) :=
  ⟨by decide, by decide,
    (submitScore_fanout_spec oneLeagueDB (fun _ => false) "u1" "2024-01-05"
      "t2" 2 (by decide) (by decide)).2.1⟩

/-! Claim C5: validation of the score submission. -/

/-- A negative mistakes value is not rejected: the submission proceeds to
the fan-out and writes the score row, instead of failing validation. -/
theorem submitScore_negative_mistakes_written :
    submitScore oneLeagueDB "u1" "2024-01-05" (some (-1)) "t2" =
      .ok { oneLeagueDB with
              scores := [⟨"u1", "l1", "2024-01-05", -1, "t2"⟩] } 1 := by
  decide

/-- Validation of the score submission as implemented: the call fails with
a validation error, leaving the store untouched, exactly when the uuid or
the date is empty or the mistakes value is absent; any present mistakes
value (negative or not) proceeds to the fan-out writes. -/
theorem submitScore_validation_spec (db : DB) (uuid date : String)
    (mistakes : Option Int) (now : String) :
    ((uuid = "" ∨ date = "" ∨ mistakes = none) →
      submitScore db uuid date mistakes now = .validationError db) ∧
    (uuid ≠ "" → date ≠ "" → ∀ m, mistakes = some m →
      ∃ db' r, submitScore db uuid date mistakes now = .ok db' r) := by
  constructor
  · intro h
    cases mistakes with
    | none => simp [submitScore]
    | some m =>
      rcases h with h | h | h
      · simp [submitScore, h]
      · simp [submitScore, h]
      · exact absurd h (by simp)
  · intro hu hd m hm
    subst hm
    have hunf : submitScore db uuid date (some m) now =
        if (memberLeagues db uuid).isEmpty then SubmitResult.ok db 0
        else SubmitResult.ok
          { db with scores := (fanoutFlatLoop db.scores uuid date m now
              (memberLeagues db uuid)).1 }
          (fanoutFlatLoop db.scores uuid date m now (memberLeagues db uuid)).2 := by
      simp [submitScore, memberLeagues, hu, hd]
    by_cases hempty : (memberLeagues db uuid).isEmpty
    · exact ⟨db, 0, by rw [hunf, if_pos hempty]⟩
    · exact ⟨_, _, by rw [hunf, if_neg hempty]⟩

/-- Concrete runs of the validation theorem: an absent mistakes value is
rejected with the store unchanged, and a present value proceeds. -/
theorem submitScore_validation_spec_witness :
    (submitScore oneLeagueDB "u1" "2024-01-05" none "t2" =
      .validationError oneLeagueDB) ∧
    (∃ db' r, submitScore oneLeagueDB "u1" "2024-01-05" (some 3) "t2" =
      .ok db' r) :=
  ⟨(submitScore_validation_spec oneLeagueDB "u1" "2024-01-05" none "t2").1
      (Or.inr (Or.inr rfl)),
    (submitScore_validation_spec oneLeagueDB "u1" "2024-01-05" (some 3) "t2").2
      (by decide) (by decide) 3 rfl⟩

/-! Claim C7: idempotence of the membership and score writes. -/

/-- With no matching row present, the upsert appends a new row. -/
theorem upsertScoreRow_of_not_found {scores : List Score}
    {uuid L date : String} {m : Int} {now : String}
    (h : ∀ s ∈ scores, ¬(s.playerUuid = uuid ∧ s.leagueId = L ∧ s.date = date)) :
    upsertScoreRow scores uuid L date m now =
      scores ++ [⟨uuid, L, date, m, now⟩] := by
  induction scores with
  | nil => simp [upsertScoreRow]
  | cons s rest ih =>
    have hs : ¬(s.playerUuid = uuid ∧ s.leagueId = L ∧ s.date = date) :=
      h s (by simp)
    simp [upsertScoreRow, hs, ih (fun x hx => h x (by simp [hx]))]

/-- The upsert skips past a clean (no matching row) part of the table. -/
theorem upsertScoreRow_append_of_not_found {xs : List Score}
    {uuid L date : String} {m : Int} {now : String} (ys : List Score)
    (h : ∀ s ∈ xs, ¬(s.playerUuid = uuid ∧ s.leagueId = L ∧ s.date = date)) :
    upsertScoreRow (xs ++ ys) uuid L date m now =
      xs ++ upsertScoreRow ys uuid L date m now := by
  induction xs with
  | nil => simp
  | cons s rest ih =>
    have hs : ¬(s.playerUuid = uuid ∧ s.leagueId = L ∧ s.date = date) :=
      h s (by simp)
    simp [upsertScoreRow, hs, ih (fun x hx => h x (by simp [hx]))]

/-- Unfolding of a successful join. -/
theorem joinLeague_ok (db : DB) (L uuid dn now : String) (lg : League)
    (hu : uuid ≠ "") (h1 : dn ≠ "") (h1t : jsTrim dn ≠ "")
    (hlg : objLookup db.leagues L = some lg) :
    joinLeague db L uuid dn now = .ok
      { db with
        players := objSet db.players uuid ⟨uuid, jsTrim dn,
          match objLookup db.players uuid with
          | some p => if p.createdAt = "" then now else p.createdAt
          | none => now⟩,
        memberships :=
          if (db.memberships.find? (fun m =>
              decide (m.playerUuid = uuid ∧ m.leagueId = L))).isSome then
            db.memberships
          else db.memberships ++ [⟨uuid, L, now⟩] } lg := by
  simp [joinLeague, hu, h1, h1t, hlg]

/-- C7: joining the same league twice leaves exactly one membership row for
the pair, carrying the joinedAt of the first call; and upserting a score
for the same key twice leaves exactly one score row, holding the later
mistakes value. -/
theorem join_and_upsert_idempotent (db : DB)
    (L uuid dn1 dn2 now1 now2 : String) (lg : League)
    (hu : uuid ≠ "") (h1 : dn1 ≠ "") (h1t : jsTrim dn1 ≠ "")
    (h2 : dn2 ≠ "") (h2t : jsTrim dn2 ≠ "")
    (hlg : objLookup db.leagues L = some lg)
    (hno : ∀ mb ∈ db.memberships, ¬(mb.playerUuid = uuid ∧ mb.leagueId = L))
    (scores : List Score) (d : String) (m1 m2 : Int) (t1 t2 : String)
    (hnos : ∀ s ∈ scores,
      ¬(s.playerUuid = uuid ∧ s.leagueId = L ∧ s.date = d)) :
    (∃ db1 db2,
      joinLeague db L uuid dn1 now1 = .ok db1 lg ∧
      joinLeague db1 L uuid dn2 now2 = .ok db2 lg ∧
      db2.memberships.filter (fun mb =>
        decide (mb.playerUuid = uuid ∧ mb.leagueId = L)) = [⟨uuid, L, now1⟩]) ∧
    (upsertScoreRow (upsertScoreRow scores uuid L d m1 t1) uuid L d m2 t2).filter
        (fun s => decide (s.playerUuid = uuid ∧ s.leagueId = L ∧ s.date = d)) =
      [⟨uuid, L, d, m2, t2⟩] := by
  constructor
  · have hfind1 : db.memberships.find? (fun mb =>
        decide (mb.playerUuid = uuid ∧ mb.leagueId = L)) = none :=
      List.find?_eq_none.mpr (fun x hx => by simpa using hno x hx)
    have hj1 := joinLeague_ok db L uuid dn1 now1 lg hu h1 h1t hlg
    rw [hfind1] at hj1
    simp only [Option.isSome_none, Bool.false_eq_true, if_false] at hj1
    set db1 : DB :=
      { db with
        players := objSet db.players uuid ⟨uuid, jsTrim dn1,
          match objLookup db.players uuid with
          | some p => if p.createdAt = "" then now1 else p.createdAt
          | none => now1⟩,
        memberships := db.memberships ++ [⟨uuid, L, now1⟩] } with hdb1
    have hlg1 : objLookup db1.leagues L = some lg := hlg
    have hfind2 : (db1.memberships.find? (fun mb =>
        decide (mb.playerUuid = uuid ∧ mb.leagueId = L))).isSome :=
      List.find?_isSome.mpr ⟨⟨uuid, L, now1⟩, by simp [hdb1], by simp⟩
    have hj2 := joinLeague_ok db1 L uuid dn2 now2 lg hu h2 h2t hlg1
    rw [if_pos hfind2] at hj2
    refine ⟨db1, _, hj1, hj2, ?_⟩
    have hclean : db.memberships.filter (fun mb =>
        decide (mb.playerUuid = uuid ∧ mb.leagueId = L)) = [] := by
      rw [List.filter_eq_nil_iff]
      intro x hx
      simp only [decide_eq_true_eq]
      exact hno x hx
    show (db1.memberships).filter _ = _
    rw [hdb1]
    show ((db.memberships ++ _).filter _) = _
    rw [List.filter_append, hclean]
    simp
  · rw [upsertScoreRow_of_not_found hnos,
      upsertScoreRow_append_of_not_found [⟨uuid, L, d, m1, t1⟩] hnos]
    have hclean : scores.filter (fun s =>
        decide (s.playerUuid = uuid ∧ s.leagueId = L ∧ s.date = d)) = [] := by
      rw [List.filter_eq_nil_iff]
      intro x hx
      simp only [decide_eq_true_eq]
      exact hnos x hx
    have hrow : upsertScoreRow [⟨uuid, L, d, m1, t1⟩] uuid L d m2 t2 =
        [⟨uuid, L, d, m2, t2⟩] := by
      simp [upsertScoreRow]
    rw [hrow, List.filter_append, hclean]
    simp

/-- Concrete run of the idempotence theorem. -/
theorem join_and_upsert_idempotent_witness :
    (∃ db1 db2,
      joinLeague oneLeagueDB "l1" "u2" "Ann" "t5" = .ok db1 ⟨"l1", "L", "t0"⟩ ∧
      joinLeague db1 "l1" "u2" "Ann" "t6" = .ok db2 ⟨"l1", "L", "t0"⟩ ∧
      db2.memberships.filter (fun mb =>
        decide (mb.playerUuid = "u2" ∧ mb.leagueId = "l1")) =
        [⟨"u2", "l1", "t5"⟩]) ∧
    (upsertScoreRow (upsertScoreRow [] "u2" "l1" "2024-01-05" 1 "t7")
        "u2" "l1" "2024-01-05" 4 "t8").filter
      (fun s => decide (s.playerUuid = "u2" ∧ s.leagueId = "l1" ∧
        s.date = "2024-01-05")) = [⟨"u2", "l1", "2024-01-05", 4, "t8"⟩] :=
  join_and_upsert_idempotent oneLeagueDB "l1" "u2" "Ann" "Ann" "t5" "t6"
    ⟨"l1", "L", "t0"⟩ (by decide) (by decide) (by decide) (by decide)
    (by decide) (by decide) (by decide) [] "2024-01-05" 1 4 "t7" "t8"
    (by decide)

/-! Claim C8: the player upsert overwrites the display name only. -/

/-- C8: on both the join path and the display-name update path, an upsert
of an existing player overwrites only the displayName field, preserving
uuid and createdAt; an absent player is created. -/
theorem upsertPlayer_frame_spec (db : DB) (L uuid dn now : String)
    (lg : League) (hu : uuid ≠ "") (hdn : dn ≠ "") (hdnt : jsTrim dn ≠ "")
    (hlg : objLookup db.leagues L = some lg) :
    (∀ p, objLookup db.players uuid = some p → p.uuid = uuid →
      p.createdAt ≠ "" →
      ∃ db', joinLeague db L uuid dn now = .ok db' lg ∧
        objLookup db'.players uuid = some ⟨p.uuid, jsTrim dn, p.createdAt⟩) ∧
    (objLookup db.players uuid = none →
      ∃ db', joinLeague db L uuid dn now = .ok db' lg ∧
        objLookup db'.players uuid = some ⟨uuid, jsTrim dn, now⟩) ∧
    (∀ p, objLookup db.players uuid = some p →
      objLookup (updateDisplayName db uuid dn now).players uuid =
        some ⟨p.uuid, jsTrim dn, p.createdAt⟩) ∧
    (objLookup db.players uuid = none →
      objLookup (updateDisplayName db uuid dn now).players uuid =
        some ⟨uuid, jsTrim dn, now⟩) := by
  refine ⟨?_, ?_, ?_, ?_⟩
  · intro p hp hpu hpc
    have hj := joinLeague_ok db L uuid dn now lg hu hdn hdnt hlg
    have hred : (match objLookup db.players uuid with
        | some q => if q.createdAt = "" then now else q.createdAt
        | none => now) = p.createdAt := by
      rw [hp]
      show (if p.createdAt = "" then now else p.createdAt) = p.createdAt
      rw [if_neg hpc]
    rw [hred] at hj
    refine ⟨_, hj, ?_⟩
    have := objLookup_objSet_self db.players uuid
      ⟨uuid, jsTrim dn, p.createdAt⟩
    simpa [hpu] using this
  · intro hp
    have hj := joinLeague_ok db L uuid dn now lg hu hdn hdnt hlg
    have hred : (match objLookup db.players uuid with
        | some q => if q.createdAt = "" then now else q.createdAt
        | none => now) = now := by
      rw [hp]
    rw [hred] at hj
    exact ⟨_, hj, objLookup_objSet_self db.players uuid ⟨uuid, jsTrim dn, now⟩⟩
  · intro p hp
    simp only [updateDisplayName, hdn, hdnt, hp]
    rw [if_neg (by simp [hdn, hdnt])]
    simpa [hp] using objLookup_objSet_self db.players uuid
      { p with displayName := jsTrim dn }
  · intro hp
    simp only [updateDisplayName, hdn, hdnt, hp]
    rw [if_neg (by simp [hdn, hdnt])]
    exact objLookup_objSet_self db.players uuid ⟨uuid, jsTrim dn, now⟩

/-- Concrete run of the frame theorem: overwriting the name of the player
u1 preserves uuid and createdAt on both paths. -/
theorem upsertPlayer_frame_spec_witness :
    (∃ db', joinLeague playerDB "l1" "u1" "New" "t9" = .ok db' ⟨"l1", "L", "t0"⟩ ∧
      objLookup db'.players "u1" = some ⟨"u1", jsTrim "New", "t0"⟩) ∧
    (objLookup (updateDisplayName playerDB "u1" "New" "t9").players "u1" =
      some ⟨"u1", jsTrim "New", "t0"⟩) :=
  ⟨(upsertPlayer_frame_spec playerDB "l1" "u1" "New" "t9" ⟨"l1", "L", "t0"⟩
      (by decide) (by decide) (by decide) (by decide)).1
      ⟨"u1", "Old", "t0"⟩ (by decide) (by decide) (by decide),
    (upsertPlayer_frame_spec playerDB "l1" "u1" "New" "t9" ⟨"l1", "L", "t0"⟩
      (by decide) (by decide) (by decide) (by decide)).2.2.1
      ⟨"u1", "Old", "t0"⟩ (by decide)⟩

/-! Claim C9: the player league summary. -/

/-- Per-league summary recursion: every produced row has a resolvable
league and counts the played-today scores against the one `today` value;
unresolvable ids produce no row. -/
theorem summarizeFlat_spec (db : DB) (uuid today : String) :
    ∀ ids : List String,
      ((summarizeFlat db uuid today ids).length =
        (ids.filter (fun L => (objLookup db.leagues L).isSome)).length) ∧
      ∀ e ∈ summarizeFlat db uuid today ids,
        (objLookup db.leagues e.id).isSome ∧
        e.played_today = (db.scores.filter (fun s =>
          decide (s.leagueId = e.id ∧ s.date = today))).length := by
  intro ids
  induction ids with
  | nil => simp [summarizeFlat]
  | cons L rest ih =>
    cases hL : objLookup db.leagues L with
    | none =>
      constructor
      · simp [summarizeFlat, hL, ih.1]
      · intro e he
        simp only [summarizeFlat, hL] at he
        exact ih.2 e he
    | some lg =>
      constructor
      · simp [summarizeFlat, hL, ih.1]
      · intro e he
        simp only [summarizeFlat, hL] at he
        rcases List.mem_cons.mp he with rfl | hmem
        · exact ⟨by simp [hL], rfl⟩
        · exact ih.2 e hmem

/-- C9 (amended): in the flat-file variant every unresolvable league of
the player is silently omitted from the summary (the call does not fail),
while the service-backed variant keeps such leagues under the name
`'Unknown'`; in both variants every row counts played-today scores
against the single `today` value computed once per call. -/
theorem playerLeagueSummary_today_and_missing (db : DB) (uuid today : String) :
    (∀ e ∈ playerLeagueSummaryFlat db uuid today,
      (objLookup db.leagues e.id).isSome) ∧
    ((playerLeagueSummaryFlat db uuid today).length =
      ((memberLeagues db uuid).filter
        (fun L => (objLookup db.leagues L).isSome)).length) ∧
    (∀ e ∈ playerLeagueSummaryFlat db uuid today,
      e.played_today = (db.scores.filter (fun s =>
        decide (s.leagueId = e.id ∧ s.date = today))).length) ∧
    (∀ e ∈ playerLeagueSummaryServer db uuid today,
      e.played_today = (db.scores.filter (fun s =>
        decide (s.leagueId = e.id ∧ s.date = today))).length ∧
      (objLookup db.leagues e.id = none → e.name = "Unknown")) := by
  have h := summarizeFlat_spec db uuid today (memberLeagues db uuid)
  refine ⟨fun e he => (h.2 e he).1, h.1, fun e he => (h.2 e he).2, ?_⟩
  intro e he
  simp only [playerLeagueSummaryServer] at he
  by_cases hempty :
      (db.memberships.filter (fun m => decide (m.playerUuid = uuid))).isEmpty
  · rw [if_pos hempty] at he
    simp at he
  · rw [if_neg hempty] at he
    obtain ⟨m, _, rfl⟩ := List.mem_map.mp he
    refine ⟨rfl, ?_⟩
    intro hnone
    simp only at hnone ⊢
    rw [hnone]

/-- Concrete run of the summary theorem: with a dangling membership the
flat-file summary has exactly the rows of the resolvable leagues. -/
theorem playerLeagueSummary_today_and_missing_witness :
    (playerLeagueSummaryFlat danglingDB "u1" "2024-01-05").length =
      ((memberLeagues danglingDB "u1").filter
        (fun L => (objLookup danglingDB.leagues L).isSome)).length :=
  (playerLeagueSummary_today_and_missing danglingDB "u1" "2024-01-05").2.1

/-- A membership whose league record is gone is not omitted by the
service-backed variant: it is kept with the fallback name `'Unknown'`
(the flat-file variant drops it). -/
theorem playerLeagueSummary_unknown_not_omitted :
    objLookup danglingDB.leagues "gone" = none ∧
    playerLeagueSummaryServer danglingDB "u1" "2024-01-05" =
      [⟨"gone", "Unknown", 1, 0⟩] ∧
    playerLeagueSummaryFlat danglingDB "u1" "2024-01-05" = [] := by
  decide

/-! Claim C6: score rows exist only for memberships. -/

/-- A score upsert either writes the key being upserted or keeps the key
of an existing row. -/
theorem upsertScoreRow_keys {scores : List Score} {uuid L d : String}
    {m : Int} {now : String} :
    ∀ s' ∈ upsertScoreRow scores uuid L d m now,
      (s'.playerUuid = uuid ∧ s'.leagueId = L) ∨
        ∃ s ∈ scores, s.playerUuid = s'.playerUuid ∧
          s.leagueId = s'.leagueId := by
  induction scores with
  | nil =>
    intro s' hs'
    simp only [upsertScoreRow, List.mem_singleton] at hs'
    subst hs'
    exact Or.inl ⟨rfl, rfl⟩
  | cons s rest ih =>
    intro s' hs'
    by_cases hc : s.playerUuid = uuid ∧ s.leagueId = L ∧ s.date = d
    · simp only [upsertScoreRow, if_pos hc, List.mem_cons] at hs'
      rcases hs' with rfl | hmem
      · exact Or.inr ⟨s, by simp, rfl, rfl⟩
      · exact Or.inr ⟨s', by simp [hmem], rfl, rfl⟩
    · simp only [upsertScoreRow, if_neg hc, List.mem_cons] at hs'
      rcases hs' with rfl | hmem
      · exact Or.inr ⟨s', by simp, rfl, rfl⟩
      · rcases ih s' hmem with h | ⟨s0, hs0, hk⟩
        · exact Or.inl h
        · exact Or.inr ⟨s0, by simp [hs0], hk⟩

/-- The flat fan-out only creates score rows for leagues of the player:
if every starting row has a membership and every fanned-out league has a
membership of the player, then every final row has a membership. -/
theorem fanoutFlatLoop_keys (ms : List MembershipRow) (uuid date : String)
    (m : Int) (now : String) :
    ∀ (ls : List String) (scores : List Score),
      (∀ L ∈ ls, ∃ mb ∈ ms, mb.playerUuid = uuid ∧ mb.leagueId = L) →
      (∀ s ∈ scores, ∃ mb ∈ ms, mb.playerUuid = s.playerUuid ∧
        mb.leagueId = s.leagueId) →
      ∀ s' ∈ (fanoutFlatLoop scores uuid date m now ls).1,
        ∃ mb ∈ ms, mb.playerUuid = s'.playerUuid ∧
          mb.leagueId = s'.leagueId := by
  intro ls
  induction ls with
  | nil =>
    intro scores _ hscores s' hs'
    simp only [fanoutFlatLoop] at hs'
    exact hscores s' hs'
  | cons L rest ih =>
    intro scores hls hscores s' hs'
    simp only [fanoutFlatLoop] at hs'
    refine ih _ (fun L0 h0 => hls L0 (by simp [h0])) ?_ s' hs'
    intro s0 hs0
    rcases upsertScoreRow_keys s0 hs0 with ⟨h1, h2⟩ | ⟨s1, hs1, hk1, hk2⟩
    · obtain ⟨mb, hmb, hmk⟩ := hls L (by simp)
      exact ⟨mb, hmb, by rw [hmk.1, h1], by rw [hmk.2, h2]⟩
    · obtain ⟨mb, hmb, hmk⟩ := hscores s1 hs1
      exact ⟨mb, hmb, by rw [hmk.1, hk1], by rw [hmk.2, hk2]⟩

/-- One engine operation preserves the referential invariant. -/
theorem applyOp_preserves (db : DB) (op : EngineOp)
    (h : scoresHaveMembership db) : scoresHaveMembership (applyOp db op) := by
  cases op with
  | createLeague name id now =>
    by_cases hv : name = "" ∨ jsTrim name = ""
    · simpa [applyOp, createLeague, hv] using h
    · intro s hs
      simp only [applyOp, createLeague, if_neg hv] at hs ⊢
      exact h s hs
  | join id uuid displayName now =>
    by_cases hv : uuid = "" ∨ displayName = "" ∨ jsTrim displayName = ""
    · simpa [applyOp, joinLeague, hv] using h
    · cases hlg : objLookup db.leagues id with
      | none => simpa [applyOp, joinLeague, hv, hlg] using h
      | some lg =>
        intro s hs
        simp only [applyOp, joinLeague, if_neg hv, hlg] at hs ⊢
        obtain ⟨mb, hmb, hk⟩ := h s hs
        by_cases hfind : (db.memberships.find? (fun mb =>
            decide (mb.playerUuid = uuid ∧ mb.leagueId = id))).isSome
        · rw [if_pos hfind]
          exact ⟨mb, hmb, hk⟩
        · rw [if_neg hfind]
          exact ⟨mb, List.mem_append_left _ hmb, hk⟩
  | submit uuid date mistakes now =>
    cases mistakes with
    | none => simpa [applyOp, submitScore] using h
    | some m =>
      by_cases hv : uuid = "" ∨ date = ""
      · simpa [applyOp, submitScore, hv] using h
      · by_cases hempty : ((db.memberships.filter (fun mb =>
            decide (mb.playerUuid = uuid))).map (fun mb => mb.leagueId)).isEmpty
        · simpa [applyOp, submitScore, hv, hempty] using h
        · intro s hs
          simp only [applyOp, submitScore, if_neg hv, if_neg hempty] at hs ⊢
          refine fanoutFlatLoop_keys db.memberships uuid date m now _
            db.scores ?_ h s hs
          intro L hL
          obtain ⟨mb, hmb, hm⟩ := List.mem_map.mp hL
          have := List.mem_filter.mp hmb
          exact ⟨mb, this.1, by simpa using this.2, hm⟩
  | updateName uuid displayName now =>
    by_cases hv : displayName = "" ∨ jsTrim displayName = ""
    · simpa [applyOp, updateDisplayName, hv] using h
    · cases hp : objLookup db.players uuid with
      | none =>
        intro s hs
        simp only [applyOp, updateDisplayName, if_neg hv, hp] at hs ⊢
        exact h s hs
      | some p =>
        intro s hs
        simp only [applyOp, updateDisplayName, if_neg hv, hp] at hs ⊢
        exact h s hs

/-- C6: starting from the empty store, any sequence of engine operations
leaves every score row with a matching membership row: scores are only
ever created through the fan-out over the current memberships of the
player. -/
theorem runOps_scores_have_membership (ops : List EngineOp) :
    scoresHaveMembership (runOps emptyDB ops) := by
  have hgen : ∀ (l : List EngineOp) (db : DB), scoresHaveMembership db →
      scoresHaveMembership (runOps db l) := by
    intro l
    induction l with
    | nil => intro db h; exact h
    | cons op rest ih =>
      intro db h
      exact ih (applyOp db op) (applyOp_preserves db op h)
  exact hgen ops emptyDB (fun s hs => by simp [emptyDB] at hs)

/-! Claim C2: the leaderboard sort order. -/

/-- The comparator relation is total once the locale comparison is. -/
theorem cmpEntry_le_total (lc : String → String → Int)
    (hTot : ∀ s t, lc s t ≤ 0 ∨ lc t s ≤ 0) :
    ∀ a b : Entry, cmpEntry lc a b ≤ 0 ∨ cmpEntry lc b a ≤ 0 := by
  intro a b
  cases ha : a.mistakes <;> cases hb : b.mistakes <;>
    simp only [cmpEntry, ha, hb] <;>
    first
      | exact hTot _ _
      | omega

/-- The comparator relation is transitive once the locale comparison is. -/
theorem cmpEntry_le_trans (lc : String → String → Int)
    (hTrans : ∀ s t u, lc s t ≤ 0 → lc t u ≤ 0 → lc s u ≤ 0) :
    ∀ a b c : Entry, cmpEntry lc a b ≤ 0 → cmpEntry lc b c ≤ 0 →
      cmpEntry lc a c ≤ 0 := by
  intro a b c
  cases ha : a.mistakes <;> cases hb : b.mistakes <;> cases hc : c.mistakes <;>
    simp only [cmpEntry, ha, hb, hc] <;>
    first
      | exact hTrans _ _ _
      | omega

/-- C2: the leaderboard sort is a permutation of the joined member list
that is ordered by the strict priority of the comparator: played entries
before unplayed ones, played entries ascending by mistakes, unplayed
entries ascending by the locale comparison of display names. -/
theorem leaderboard_sort_spec (lc : String → String → Int)
    (hTot : ∀ s t, lc s t ≤ 0 ∨ lc t s ≤ 0)
    (hTrans : ∀ s t u, lc s t ≤ 0 → lc t u ≤ 0 → lc s u ≤ 0)
    (members : List Entry) :
    List.Perm (sortMembers lc members) members ∧
      List.Pairwise (specLE lc) (sortMembers lc members) := by
  constructor
  · exact List.perm_insertionSort _ members
  · haveI : IsTotal Entry (fun a b => cmpEntry lc a b ≤ 0) :=
      ⟨cmpEntry_le_total lc hTot⟩
    haveI : IsTrans Entry (fun a b => cmpEntry lc a b ≤ 0) :=
      ⟨cmpEntry_le_trans lc hTrans⟩
    have hsorted := List.sorted_insertionSort
      (fun a b => cmpEntry lc a b ≤ 0) members
    refine hsorted.imp ?_
    intro a b hab
    cases ha : a.mistakes <;> cases hb : b.mistakes <;>
      simp only [cmpEntry, ha, hb] at hab <;>
      simp only [specLE, ha, hb]
    all_goals omega

/-- Concrete run of the sort theorem using the degenerate locale. -/
theorem leaderboard_sort_spec_witness :
    List.Perm
      (sortMembers lcZero [⟨"b", "b", none, none⟩, ⟨"a", "a", some 2, none⟩])
      [⟨"b", "b", none, none⟩, ⟨"a", "a", some 2, none⟩] ∧
    List.Pairwise (specLE lcZero)
      (sortMembers lcZero
        [⟨"b", "b", none, none⟩, ⟨"a", "a", some 2, none⟩]) :=
  leaderboard_sort_spec lcZero (fun _ _ => Or.inl (le_refl 0))
    (fun _ _ _ _ _ => le_refl 0) _

/-! Claim C10: members without a player record still appear, as Unknown. -/

/-- C10: a league member whose player record is absent does not make the
leaderboard fail: the computation succeeds, produces one entry per
membership of the league, and the member appears with display name
`'Unknown'`, sorted and ranked like any other entry. -/
theorem computeLeaderboard_unknown_member (db : DB)
    (id date uuidU : String) (lc : String → String → Int) (lg : League)
    (hlg : objLookup db.leagues id = some lg)
    (mb : MembershipRow) (hmb : mb ∈ db.memberships)
    (hmbL : mb.leagueId = id) (hmbU : mb.playerUuid = uuidU)
    (hp : objLookup db.players uuidU = none) :
    ∃ lb, computeLeaderboard db id date lc = some (lg, date, lb) ∧
      lb.length =
        (db.memberships.filter (fun x => decide (x.leagueId = id))).length ∧
      ∃ e ∈ lb, e.entry.uuid = uuidU ∧ e.entry.display_name = "Unknown" := by
  refine ⟨rankLoop 0 none 0 (sortMembers lc (buildMembers db id date)),
    by simp [computeLeaderboard, hlg], ?_, ?_⟩
  · have h1 : (rankLoop 0 none 0
        (sortMembers lc (buildMembers db id date))).length =
        (sortMembers lc (buildMembers db id date)).length := by
      conv_lhs => rw [← List.length_map _ (fun r => r.entry),
        rankLoop_map_entry 0 none 0 (sortMembers lc (buildMembers db id date))]
    rw [h1]
    have h2 : (sortMembers lc (buildMembers db id date)).length =
        (buildMembers db id date).length :=
      (List.perm_insertionSort _ _).length_eq
    rw [h2]
    simp [buildMembers]
  · have hu : uuidU ∈ (db.memberships.filter
        (fun m => decide (m.leagueId = id))).map (fun m => m.playerUuid) :=
      List.mem_map.mpr ⟨mb, List.mem_filter.mpr ⟨hmb, by simp [hmbL]⟩, hmbU⟩
    have hbm : ∃ e ∈ buildMembers db id date,
        e.uuid = uuidU ∧ e.display_name = "Unknown" := by
      refine ⟨_, List.mem_map_of_mem _ hu, rfl, ?_⟩
      simp only [hp]
    obtain ⟨e, hemem, heu, hen⟩ := hbm
    have hes : e ∈ sortMembers lc (buildMembers db id date) := by
      simpa [sortMembers] using hemem
    have hmap := rankLoop_map_entry 0 none 0
      (sortMembers lc (buildMembers db id date))
    rw [← hmap] at hes
    obtain ⟨r, hr, hre⟩ := List.mem_map.mp hes
    exact ⟨r, hr, by rw [hre, heu], by rw [hre, hen]⟩

/-- Concrete run: the single member of the fixture league has no player
record and appears as Unknown. -/
theorem computeLeaderboard_unknown_member_witness :
    ∃ lb, computeLeaderboard oneLeagueDB "l1" "2024-01-05" lcZero =
        some (⟨"l1", "L", "t0"⟩, "2024-01-05", lb) ∧
      lb.length = (oneLeagueDB.memberships.filter
        (fun x => decide (x.leagueId = "l1"))).length ∧
      ∃ e ∈ lb, e.entry.uuid = "u1" ∧ e.entry.display_name = "Unknown" :=
  computeLeaderboard_unknown_member oneLeagueDB "l1" "2024-01-05" "u1" lcZero
    ⟨"l1", "L", "t0"⟩ (by decide) ⟨"u1", "l1", "t1"⟩ (by decide) (by decide)
    (by decide) (by decide)

/-! Claim C1: dense competition ranks.  First a characterization of the
rank loop on lists whose played entries appear in non-decreasing order of
mistakes: every played entry gets rank one plus the number of played
entries with strictly fewer mistakes. -/

/-- countBetter distributes over append. -/
theorem countBetter_append (l1 l2 : List Entry) (m : Int) :
    countBetter (l1 ++ l2) m = countBetter l1 m + countBetter l2 m :=
  List.countP_append _ _ _

/-- An unplayed entry is never counted. -/
theorem countBetter_cons_none {e : Entry} (he : e.mistakes = none)
    (l : List Entry) (m : Int) : countBetter (e :: l) m = countBetter l m := by
  unfold countBetter
  rw [List.countP_cons_of_neg]
  simp [he]

/-- A played entry is counted exactly when it has strictly fewer
mistakes. -/
theorem countBetter_cons_some {e : Entry} {k : Int}
    (he : e.mistakes = some k) (l : List Entry) (m : Int) :
    countBetter (e :: l) m = countBetter l m + if k < m then 1 else 0 := by
  unfold countBetter
  rw [List.countP_cons]
  simp [he]

/-- Nothing is counted when every played entry is at or above `m`. -/
theorem countBetter_eq_zero_of_ge {l : List Entry} {m : Int}
    (h : ∀ x ∈ l, ∀ y, x.mistakes = some y → m ≤ y) : countBetter l m = 0 := by
  unfold countBetter
  rw [List.countP_eq_zero]
  intro x hx
  cases hxm : x.mistakes with
  | none => simp
  | some y =>
    have := h x hx y hxm
    simp only [hxm]
    simpa using by omega

/-- Everything played is counted when every played entry is below `m`. -/
theorem countBetter_eq_countPlayed {l : List Entry} {m : Int}
    (h : ∀ x ∈ l, ∀ y, x.mistakes = some y → y < m) :
    countBetter l m = l.countP (fun x => x.mistakes.isSome) := by
  unfold countBetter
  apply List.countP_congr
  intro x hx
  cases hxm : x.mistakes with
  | none => simp [hxm]
  | some y => simp [hxm, h x hx y hxm]

/-- Nothing is counted in a list without played entries. -/
theorem countBetter_eq_zero_of_unplayed {l : List Entry}
    (h : l.countP (fun x => x.mistakes.isSome) = 0) (m : Int) :
    countBetter l m = 0 := by
  unfold countBetter
  rw [List.countP_eq_zero]
  intro x hx
  have := (List.countP_eq_zero.mp h) x hx
  cases hxm : x.mistakes with
  | none => simp
  | some y => simp [hxm] at this

/-- Characterization of the rank loop of `src/server.js` lines 158-173:
with the processed part `pre` tied to the state by `rankState` and the
played entries globally non-decreasing, every produced rank of a played
entry is one plus the number of played entries with strictly fewer
mistakes, and unplayed entries get a null rank. -/
theorem rankLoop_char :
    ∀ (l pre : List Entry) (cr : Nat) (lastM : Option Int),
      List.Pairwise mleR (pre ++ l) →
      rankState pre cr lastM →
      ∀ r ∈ rankLoop cr lastM
          (pre.countP (fun x => x.mistakes.isSome)) l,
        (r.entry.mistakes = none → r.rank = none) ∧
        (∀ m, r.entry.mistakes = some m →
          r.rank = some (1 + countBetter (pre ++ l) m)) := by
  intro l
  induction l with
  | nil => intro pre cr lastM _ _ r hr; simp [rankLoop] at hr
  | cons e rest ih =>
    intro pre cr lastM hpair hstate r hr
    have hsplit := List.pairwise_append.mp hpair
    have hERest : ∀ x ∈ rest, mleR e x :=
      (List.pairwise_cons.mp hsplit.2.1).1
    have hPreE : ∀ w ∈ pre, mleR w e :=
      fun w hw => hsplit.2.2 w hw e (List.mem_cons_self e rest)
    have hpair' : List.Pairwise mleR ((pre ++ [e]) ++ rest) := by
      rw [← List.append_cons]
      exact hpair
    cases he : e.mistakes with
    | none =>
      simp only [rankLoop, he, List.mem_cons] at hr
      have hpc : (pre ++ [e]).countP (fun x => x.mistakes.isSome) =
          pre.countP (fun x => x.mistakes.isSome) := by
        simp [List.countP_append, List.countP_singleton, he]
      rcases hr with rfl | hr
      · refine ⟨fun _ => rfl, fun m hm => ?_⟩
        rw [he] at hm
        exact absurd hm (by simp)
      · have hstate' : rankState (pre ++ [e]) cr lastM := by
          cases lastM with
          | none => simpa only [rankState, hpc] using hstate
          | some v =>
            obtain ⟨hcr, ⟨w, hw, hwv⟩, hbound⟩ := hstate
            refine ⟨?_, ⟨w, List.mem_append_left _ hw, hwv⟩, ?_⟩
            · rw [countBetter_append, countBetter_cons_none he, ]
              simpa [countBetter] using hcr
            · intro x hx y hxy
              rcases List.mem_append.mp hx with hx | hx
              · exact hbound x hx y hxy
              · rw [List.mem_singleton.mp hx] at hxy
                rw [he] at hxy
                exact absurd hxy (by simp)
        have := ih (pre ++ [e]) cr lastM hpair' hstate'
        rw [hpc] at this
        have hres := this r hr
        refine ⟨hres.1, fun m hm => ?_⟩
        rw [hres.2 m hm, ← List.append_cons]
    | some k =>
      have hpc : (pre ++ [e]).countP (fun x => x.mistakes.isSome) =
          pre.countP (fun x => x.mistakes.isSome) + 1 := by
        simp [List.countP_append, List.countP_singleton, he]
      have hRestGe : ∀ x ∈ rest, ∀ y, x.mistakes = some y → k ≤ y :=
        fun x hx y hxy => hERest x hx k y he hxy
      cases lastM with
      | none =>
        have hzero : pre.countP (fun x => x.mistakes.isSome) = 0 := hstate
        have hcb0 : ∀ m, countBetter pre m = 0 :=
          countBetter_eq_zero_of_unplayed hzero
        have hcbk : countBetter (pre ++ e :: rest) k = 0 := by
          rw [countBetter_append, countBetter_cons_some he, hcb0,
            countBetter_eq_zero_of_ge hRestGe]
          simp
        simp only [rankLoop, he] at hr
        rw [if_pos (by simp : some k ≠ (none : Option Int))] at hr
        rcases List.mem_cons.mp hr with rfl | hr
        · refine ⟨fun hn => ?_, fun m hm => ?_⟩
          · rw [he] at hn; exact absurd hn (by simp)
          · rw [he] at hm
            obtain rfl : k = m := by simpa using hm
            simp [hzero, hcbk]
        · have hstate' : rankState (pre ++ [e])
              (pre.countP (fun x => x.mistakes.isSome) + 1) (some k) := by
            refine ⟨?_, ⟨e, by simp, he⟩, ?_⟩
            · rw [countBetter_append, countBetter_cons_some (l := []) he,
                hcb0, hzero]
              simp [countBetter]
            · intro x hx y hxy
              rcases List.mem_append.mp hx with hx | hx
              · have := (List.countP_eq_zero.mp hzero) x hx
                rw [hxy] at this
                simp at this
              · rw [List.mem_singleton.mp hx] at hxy
                rw [he] at hxy
                obtain rfl : k = y := by simpa using hxy
                exact le_refl k
          have := ih (pre ++ [e])
            (pre.countP (fun x => x.mistakes.isSome) + 1) (some k)
            hpair' hstate'
          rw [hpc] at this
          have hres := this r hr
          refine ⟨hres.1, fun m hm => ?_⟩
          rw [hres.2 m hm, ← List.append_cons]
      | some v =>
        obtain ⟨hcr, ⟨w, hw, hwv⟩, hbound⟩ := hstate
        by_cases hkv : k = v
        · subst hkv
          have hcbk : countBetter (pre ++ e :: rest) k = countBetter pre k := by
            rw [countBetter_append, countBetter_cons_some he,
              countBetter_eq_zero_of_ge hRestGe]
            simp
          simp only [rankLoop, he] at hr
          rw [if_neg (by simp : ¬(some k ≠ some k))] at hr
          rcases List.mem_cons.mp hr with rfl | hr
          · refine ⟨fun hn => ?_, fun m hm => ?_⟩
            · rw [he] at hn; exact absurd hn (by simp)
            · rw [he] at hm
              obtain rfl : k = m := by simpa using hm
              rw [hcbk, ← hcr]
          · have hstate' : rankState (pre ++ [e]) cr (some k) := by
              refine ⟨?_, ⟨w, List.mem_append_left _ hw, hwv⟩, ?_⟩
              · rw [countBetter_append, countBetter_cons_some (l := []) he]
                simpa [countBetter] using hcr
              · intro x hx y hxy
                rcases List.mem_append.mp hx with hx | hx
                · exact hbound x hx y hxy
                · rw [List.mem_singleton.mp hx] at hxy
                  rw [he] at hxy
                  obtain rfl : k = y := by simpa using hxy
                  exact le_refl k
            have := ih (pre ++ [e]) cr (some k) hpair' hstate'
            rw [hpc] at this
            have hres := this r hr
            refine ⟨hres.1, fun m hm => ?_⟩
            rw [hres.2 m hm, ← List.append_cons]
        · have hvk : v < k := by
            have hle : v ≤ k := hPreE w hw v k hwv he
            omega
          have hboundk : ∀ x ∈ pre, ∀ y, x.mistakes = some y → y < k :=
            fun x hx y hxy => by
              have := hbound x hx y hxy
              omega
          have hcbpre : countBetter pre k =
              pre.countP (fun x => x.mistakes.isSome) :=
            countBetter_eq_countPlayed hboundk
          have hcbk : countBetter (pre ++ e :: rest) k =
              pre.countP (fun x => x.mistakes.isSome) := by
            rw [countBetter_append, countBetter_cons_some he,
              countBetter_eq_zero_of_ge hRestGe, hcbpre]
            simp
          simp only [rankLoop, he] at hr
          rw [if_pos (by simp [hkv] : some k ≠ some v)] at hr
          rcases List.mem_cons.mp hr with rfl | hr
          · refine ⟨fun hn => ?_, fun m hm => ?_⟩
            · rw [he] at hn; exact absurd hn (by simp)
            · rw [he] at hm
              obtain rfl : k = m := by simpa using hm
              rw [hcbk]
              simp [Nat.add_comm]
          · have hstate' : rankState (pre ++ [e])
                (pre.countP (fun x => x.mistakes.isSome) + 1) (some k) := by
              refine ⟨?_, ⟨e, by simp, he⟩, ?_⟩
              · rw [countBetter_append, countBetter_cons_some (l := []) he,
                  hcbpre]
                simp only [countBetter, List.countP_nil, lt_self_iff_false,
                  if_false]
                omega
              · intro x hx y hxy
                rcases List.mem_append.mp hx with hx | hx
                · exact le_of_lt (hboundk x hx y hxy)
                · rw [List.mem_singleton.mp hx] at hxy
                  rw [he] at hxy
                  obtain rfl : k = y := by simpa using hxy
                  exact le_refl k
            have := ih (pre ++ [e])
              (pre.countP (fun x => x.mistakes.isSome) + 1) (some k)
              hpair' hstate'
            rw [hpc] at this
            have hres := this r hr
            refine ⟨hres.1, fun m hm => ?_⟩
            rw [hres.2 m hm, ← List.append_cons]

/-- Counting is monotone in the threshold. -/
theorem countBetter_mono {m1 m2 : Int} (l : List Entry) (h : m1 ≤ m2) :
    countBetter l m1 ≤ countBetter l m2 := by
  unfold countBetter
  apply List.countP_mono_left
  intro x hx
  cases hxm : x.mistakes with
  | none => simp
  | some y => simp only [hxm]; simpa using by omega

/-- A strict count inequality from one witness that only the larger
predicate accepts. -/
theorem countP_lt_countP {α : Type} {p q : α → Bool} :
    ∀ {l : List α} {x : α}, x ∈ l → p x = false → q x = true →
      (∀ y ∈ l, p y = true → q y = true) → l.countP p < l.countP q := by
  intro l
  induction l with
  | nil => intro x hx; simp at hx
  | cons a t ih =>
    intro x hx hpx hqx hmono
    rcases List.mem_cons.mp hx with rfl | hxt
    · have hle : t.countP p ≤ t.countP q :=
        List.countP_mono_left (fun y hy hpy => hmono y (by simp [hy]) hpy)
      rw [List.countP_cons, List.countP_cons, if_neg (by simp [hpx]),
        if_pos hqx]
      omega
    · have hlt := ih hxt hpx hqx (fun y hy => hmono y (by simp [hy]))
      rw [List.countP_cons, List.countP_cons]
      by_cases hpa : p a = true
      · have hqa := hmono a (by simp) hpa
        rw [if_pos hpa, if_pos hqa]
        omega
      · rw [if_neg hpa]
        by_cases hqa : q a = true
        · rw [if_pos hqa]; omega
        · rw [if_neg hqa]; omega

/-- An entry that played with `m1 < m2` mistakes separates the two
counts strictly. -/
theorem countBetter_strict {l : List Entry} {x : Entry} {m1 m2 : Int}
    (hx : x ∈ l) (hxm : x.mistakes = some m1) (h12 : m1 < m2) :
    countBetter l m1 < countBetter l m2 := by
  unfold countBetter
  refine countP_lt_countP hx ?_ ?_ ?_
  · simp [hxm]
  · simp [hxm, h12]
  · intro y hy hpy
    cases hym : y.mistakes with
    | none => simp [hym] at hpy
    | some z =>
      simp only [hym] at hpy ⊢
      simp only [decide_eq_true_eq] at hpy ⊢
      omega

/-- findIdx over a mapped list. -/
theorem findIdx_map {α β : Type} (f : α → β) (p : β → Bool) :
    ∀ l : List α, (l.map f).findIdx p = l.findIdx (fun a => p (f a)) := by
  intro l
  induction l with
  | nil => simp
  | cons a t ih => simp [List.findIdx_cons, ih]

/-- Restricting the count to the played entries changes nothing. -/
theorem countBetter_filter_isSome (l : List Entry) (m : Int) :
    countBetter (l.filter (fun x => x.mistakes.isSome)) m =
      countBetter l m := by
  unfold countBetter
  rw [List.countP_filter]
  apply List.countP_congr
  intro x hx
  cases hxm : x.mistakes with
  | none => simp [hxm]
  | some y => simp [hxm]

/-- On an all-played list sorted by mistakes, the position of the first
entry of the tied group with value `m` equals the number of entries with
strictly fewer mistakes. -/
theorem findIdx_eq_countBetter {m : Int} :
    ∀ Q : List Entry, List.Pairwise mleR Q →
      (∀ x ∈ Q, x.mistakes.isSome) →
      (∃ x ∈ Q, x.mistakes = some m) →
      Q.findIdx (fun x => decide (x.mistakes = some m)) = countBetter Q m := by
  intro Q
  induction Q with
  | nil => intro _ _ hex; simp at hex
  | cons a t ih =>
    intro hpair hplayed hex
    obtain ⟨ka, hka⟩ := Option.isSome_iff_exists.mp (hplayed a (by simp))
    have hHeadT : ∀ x ∈ t, mleR a x := (List.pairwise_cons.mp hpair).1
    by_cases hkam : ka = m
    · subst hkam
      have hcb : countBetter (a :: t) ka = 0 := by
        apply countBetter_eq_zero_of_ge
        intro x hx y hxy
        rcases List.mem_cons.mp hx with rfl | hxt
        · rw [hka] at hxy
          obtain rfl : ka = y := by simpa using hxy
          exact le_refl ka
        · exact hHeadT x hxt ka y hka hxy
      rw [hcb, List.findIdx_cons]
      simp [hka]
    · have hpa : (decide (a.mistakes = some m)) = false := by
        simp [hka, hkam]
      obtain ⟨x, hxmem, hxm⟩ := hex
      have hxt : x ∈ t := by
        rcases List.mem_cons.mp hxmem with rfl | hxt
        · rw [hka] at hxm
          exact absurd (by simpa using hxm) hkam
        · exact hxt
      have hkm : ka < m := by
        have hle : ka ≤ m := hHeadT x hxt ka m hka hxm
        omega
      rw [List.findIdx_cons, hpa, countBetter_cons_some hka, if_pos hkm]
      have := ih (List.Pairwise.of_cons hpair)
        (fun y hy => hplayed y (by simp [hy])) ⟨x, hxt, hxm⟩
      simp only [cond_false]
      omega

/-- The comparator relation refines the mistakes relation. -/
theorem cmpEntry_le_mleR (lc : String → String → Int) (a b : Entry)
    (hab : cmpEntry lc a b ≤ 0) : mleR a b := by
  intro x y hax hby
  simp only [cmpEntry, hax, hby] at hab
  omega

/-- The played entries of the rank output project onto the played entries
of the sorted input. -/
theorem playedEntries_map_entry {lb : List RankedEntry} {sorted : List Entry}
    (h : lb.map (fun r => r.entry) = sorted) :
    (playedEntries lb).map (fun r => r.entry) =
      sorted.filter (fun x => x.mistakes.isSome) := by
  subst h
  rw [List.filter_map]
  rfl

/-- C1: in the leaderboard output, every entry with absent mistakes has a
null rank whatever its position; the first played entry has rank 1; ranks
are non-decreasing along the played entries; two played entries share a
rank exactly when their mistakes are equal; and each played rank is the
one-based position of the first member of its tied group among the played
entries. -/
theorem computeLeaderboard_rank_spec (db : DB) (id date : String)
    (lc : String → String → Int)
    (hTot : ∀ s t, lc s t ≤ 0 ∨ lc t s ≤ 0)
    (hTrans : ∀ s t u, lc s t ≤ 0 → lc t u ≤ 0 → lc s u ≤ 0)
    (lg : League) (d : String) (lb : List RankedEntry)
    (hcall : computeLeaderboard db id date lc = some (lg, d, lb)) :
    (∀ r ∈ lb, r.entry.mistakes = none → r.rank = none) ∧
    (∀ r, (playedEntries lb).head? = some r → r.rank = some 1) ∧
    List.Pairwise (fun a b => ∀ ra rb, a.rank = some ra →
      b.rank = some rb → ra ≤ rb) (playedEntries lb) ∧
    (∀ r1 ∈ playedEntries lb, ∀ r2 ∈ playedEntries lb,
      ∀ ra rb ma mb, r1.rank = some ra → r2.rank = some rb →
        r1.entry.mistakes = some ma → r2.entry.mistakes = some mb →
        (ra = rb ↔ ma = mb)) ∧
    (∀ r ∈ playedEntries lb, ∀ m, r.entry.mistakes = some m →
      r.rank = some (groupStartPos (playedEntries lb) m)) := by
  cases hlg : objLookup db.leagues id with
  | none =>
    rw [show computeLeaderboard db id date lc = none by
      simp [computeLeaderboard, hlg]] at hcall
    exact absurd hcall (by simp)
  | some lg0 =>
    have hcall2 : (lg0, date, rankLoop 0 none 0
        (sortMembers lc (buildMembers db id date))) = (lg, d, lb) := by
      have hc : computeLeaderboard db id date lc = some (lg0, date,
          rankLoop 0 none 0 (sortMembers lc (buildMembers db id date))) := by
        simp [computeLeaderboard, hlg]
      rw [hc] at hcall
      exact Option.some.inj hcall
    obtain ⟨h1, h2, h3⟩ : lg0 = lg ∧ date = d ∧ rankLoop 0 none 0
        (sortMembers lc (buildMembers db id date)) = lb := by
      simpa using hcall2
    subst h3
    set sorted := sortMembers lc (buildMembers db id date) with hsorteddef
    haveI : IsTotal Entry (fun a b => cmpEntry lc a b ≤ 0) :=
      ⟨cmpEntry_le_total lc hTot⟩
    haveI : IsTrans Entry (fun a b => cmpEntry lc a b ≤ 0) :=
      ⟨cmpEntry_le_trans lc hTrans⟩
    have hsorted : List.Pairwise (fun a b => cmpEntry lc a b ≤ 0) sorted :=
      List.sorted_insertionSort _ (buildMembers db id date)
    have hmle : List.Pairwise mleR sorted :=
      hsorted.imp (fun h => cmpEntry_le_mleR lc _ _ h)
    have hchar : ∀ r ∈ rankLoop 0 none 0 sorted,
        (r.entry.mistakes = none → r.rank = none) ∧
        (∀ m, r.entry.mistakes = some m →
          r.rank = some (1 + countBetter sorted m)) := by
      have h := rankLoop_char sorted [] 0 none (by simpa using hmle)
        (by simp [rankState])
      simpa using h
    have hmap : (rankLoop 0 none 0 sorted).map (fun r => r.entry) = sorted :=
      rankLoop_map_entry 0 none 0 sorted
    set P := playedEntries (rankLoop 0 none 0 sorted) with hPdef
    set Q := sorted.filter (fun x => x.mistakes.isSome) with hQdef
    have hPQ : P.map (fun r => r.entry) = Q := playedEntries_map_entry hmap
    have hQpair : List.Pairwise mleR Q := hmle.filter _
    have hQplayed : ∀ x ∈ Q, x.mistakes.isSome :=
      fun x hx => (List.mem_filter.mp hx).2
    have hPsub : ∀ r ∈ P, r ∈ rankLoop 0 none 0 sorted :=
      fun r hr => List.mem_of_mem_filter hr
    have hPplayed : ∀ r ∈ P, r.entry.mistakes.isSome := fun r hr => by
      have := (List.mem_filter.mp hr).2
      simpa using this
    have hQofP : ∀ r ∈ P, r.entry ∈ Q := fun r hr => by
      rw [← hPQ]
      exact List.mem_map_of_mem _ hr
    have hQsubSorted : ∀ x ∈ Q, x ∈ sorted :=
      fun x hx => List.mem_of_mem_filter hx
    refine ⟨fun r hr => (hchar r hr).1, ?_, ?_, ?_, ?_⟩
    · intro r hhead
      obtain ⟨t, hPt⟩ := List.head?_eq_some_iff.mp hhead
      have hrP : r ∈ P := by rw [hPt]; exact List.mem_cons_self r t
      obtain ⟨m, hm⟩ := Option.isSome_iff_exists.mp (hPplayed r hrP)
      rw [(hchar r (hPsub r hrP)).2 m hm]
      have hQr : Q = r.entry :: t.map (fun x => x.entry) := by
        rw [← hPQ, hPt]
        rfl
      have hge : ∀ x ∈ Q, ∀ y, x.mistakes = some y → m ≤ y := by
        intro x hx y hxy
        rw [hQr] at hx
        rcases List.mem_cons.mp hx with rfl | hxt
        · rw [hm] at hxy
          obtain rfl : m = y := by simpa using hxy
          exact le_refl m
        · have hrel : mleR r.entry x := by
            have hq := hQpair
            rw [hQr] at hq
            exact (List.pairwise_cons.mp hq).1 x hxt
          exact hrel m y hm hxy
      have hcb : countBetter sorted m = 0 := by
        rw [← countBetter_filter_isSome sorted m]
        exact countBetter_eq_zero_of_ge
          (fun x hx y hxy => hge x (by rw [hQdef]; exact hx) y hxy)
      rw [hcb]
    · have hPpairM : List.Pairwise (fun a b => mleR a.entry b.entry) P := by
        have hq := hQpair
        rw [← hPQ] at hq
        exact List.pairwise_map.mp hq
      refine hPpairM.imp_of_mem ?_
      intro a b ha hb hab ra rb hra hrb
      obtain ⟨ma, hma⟩ := Option.isSome_iff_exists.mp (hPplayed a ha)
      obtain ⟨mb, hmb⟩ := Option.isSome_iff_exists.mp (hPplayed b hb)
      have hra' := (hchar a (hPsub a ha)).2 ma hma
      have hrb' := (hchar b (hPsub b hb)).2 mb hmb
      rw [hra] at hra'
      rw [hrb] at hrb'
      obtain rfl : ra = 1 + countBetter sorted ma := by simpa using hra'
      obtain rfl : rb = 1 + countBetter sorted mb := by simpa using hrb'
      have hmm : ma ≤ mb := hab ma mb hma hmb
      have := countBetter_mono sorted hmm
      omega
    · intro r1 hr1 r2 hr2 ra rb ma mb hra hrb hma hmb
      have h1' := (hchar r1 (hPsub r1 hr1)).2 ma hma
      have h2' := (hchar r2 (hPsub r2 hr2)).2 mb hmb
      rw [hra] at h1'
      rw [hrb] at h2'
      obtain rfl : ra = 1 + countBetter sorted ma := by simpa using h1'
      obtain rfl : rb = 1 + countBetter sorted mb := by simpa using h2'
      constructor
      · intro hrr
        by_contra hne
        rcases lt_trichotomy ma mb with hlt | heq | hgt
        · have := countBetter_strict (hQsubSorted _ (hQofP r1 hr1)) hma hlt
          omega
        · exact hne heq
        · have := countBetter_strict (hQsubSorted _ (hQofP r2 hr2)) hmb hgt
          omega
      · intro hmm
        rw [hmm]
    · intro r hr m hm
      rw [(hchar r (hPsub r hr)).2 m hm]
      have hfind : P.findIdx (fun x => decide (x.entry.mistakes = some m)) =
          countBetter sorted m := by
        have hfc : Q.findIdx (fun x => decide (x.mistakes = some m)) =
            countBetter Q m :=
          findIdx_eq_countBetter Q hQpair hQplayed ⟨r.entry, hQofP r hr, hm⟩
        have hfm : Q.findIdx (fun x => decide (x.mistakes = some m)) =
            P.findIdx (fun x => decide (x.entry.mistakes = some m)) := by
          rw [← hPQ, findIdx_map]
        rw [← hfm, hfc, hQdef, countBetter_filter_isSome]
      simp only [groupStartPos, hfind]
      rw [Nat.add_comm]

/-- Concrete run of the rank theorem on a league with two tied players
and one unplayed member. -/
theorem computeLeaderboard_rank_spec_witness :
    computeLeaderboard richDB "l1" "2024-01-05" lcZero =
      some (⟨"l1", "L", "t0"⟩, "2024-01-05", richLB) ∧
    ((∀ r ∈ richLB, r.entry.mistakes = none → r.rank = none) ∧
    (∀ r, (playedEntries richLB).head? = some r → r.rank = some 1) ∧
    List.Pairwise (fun a b => ∀ ra rb, a.rank = some ra →
      b.rank = some rb → ra ≤ rb) (playedEntries richLB) ∧
    (∀ r1 ∈ playedEntries richLB, ∀ r2 ∈ playedEntries richLB,
      ∀ ra rb ma mb, r1.rank = some ra → r2.rank = some rb →
        r1.entry.mistakes = some ma → r2.entry.mistakes = some mb →
        (ra = rb ↔ ma = mb)) ∧
    (∀ r ∈ playedEntries richLB, ∀ m, r.entry.mistakes = some m →
      r.rank = some (groupStartPos (playedEntries richLB) m))) :=
  ⟨by decide,
    computeLeaderboard_rank_spec richDB "l1" "2024-01-05" lcZero
      (fun _ _ => Or.inl (le_refl 0)) (fun _ _ _ _ _ => le_refl 0)
      ⟨"l1", "L", "t0"⟩ "2024-01-05" richLB (by decide)⟩
